import Mathlib

set_option maxRecDepth 100000

/-!
Shallow embedding of the hash table implemented in src/src/hash_table.c
(koffertfisk/hash-table-c).

Keys and values are type parameters: the C elem_t union is never inspected
by the table itself, only through the configured hash function, so a table
over elem_t specialises to a table over any key/value types.  Hash values
(C unsigned long) are modelled as Nat — a C hash value is a number in
[0, 2^64) and the table only takes it modulo the bucket count and compares
it for equality/order, which agree with the Nat operations.  The entry
counter (C size_t) is modelled as Nat.  The load factor (C float) is
modelled as a rational number and the float quotient size / no_buckets as
the exact rational mkRat size no_buckets; the float quotient is exact or
within 2^-23 of it, far below the distance between the load ratios and the
thresholds exercised here.  A bucket's chain is the
list of entries hanging off its sentinel head node, and the bucket array is
the list of those chains, in index order.
-/

namespace HashTableC

/-- The primes array from hash_table.c: the only legal bucket counts. -/
def primes : List Nat := [17, 31, 67, 127, 257, 509, 1021, 2053, 4099, 8191, 16381]

/-- is_number_in_prime_library: linear scan of the primes array. -/
def is_number_in_prime_library (num : Nat) : Bool :=
  primes.any (fun p => p == num)

/-- Scan for current; the successor is returned only when one exists. -/
def get_next_prime_aux : List Nat → Nat → Option Nat
  | [], _ => none
  | [_], _ => none
  | p :: q :: rest, current =>
    if p = current then some q else get_next_prime_aux (q :: rest) current

/-- get_next_prime_number: the C function returns -1 (modelled as none)
when current is not in the array or is its last element. -/
def get_next_prime_number (current : Nat) : Option Nat :=
  get_next_prime_aux primes current

/-- struct hash_table: no_buckets is the length of the buckets list; the
key/value equivalence fields are omitted (no claim exercises them). -/
structure hash_table (K V : Type) where
  load_factor : ℚ
  hash_function : K → Nat
  size : Nat
  buckets : List (List (K × V))

variable {K V : Type}

/-- default_hash_function: (unsigned long) key.i, the int value mod 2^64. -/
def default_hash_function (key : Int) : Nat :=
  (key % (2 ^ 64 : Int)).toNat

/-- hash_table_create_dynamic: validate the bucket count against the prime
library and the load factor against 0, then allocate empty chains. -/
def hash_table_create_dynamic (no_buckets : Nat) (load_factor : ℚ)
    (func : K → Nat) : Option (hash_table K V) :=
  if is_number_in_prime_library no_buckets = false then none
  else if load_factor ≤ 0 then none
  else some { load_factor := load_factor
              hash_function := func
              size := 0
              buckets := List.replicate no_buckets [] }

/-- hash_table_create: the convenience constructor with (17, 0.75). -/
def hash_table_create (func : K → Nat) : Option (hash_table K V) :=
  hash_table_create_dynamic 17 (mkRat 3 4) func

/-- The loop of hash_table_lookup over one chain: the value of the first
entry whose key hashes to hash_key, none when no entry does. -/
def chain_lookup (func : K → Nat) (hash_key : Nat) : List (K × V) → Option V
  | [] => none
  | e :: rest =>
    if func e.1 = hash_key then some e.2 else chain_lookup func hash_key rest

/-- hash_table_lookup: hash the key, pick the bucket, scan its chain. -/
def hash_table_lookup (ht : hash_table K V) (key : K) : Option V :=
  let hash_key := ht.hash_function key
  let bucket := hash_key % ht.buckets.length
  chain_lookup ht.hash_function hash_key (ht.buckets.getD bucket [])

/-- Chain-level effect of hash_table_insert after the resize step:
find_previous_entry_for_key stops in front of the first entry whose hash is
≥ hash_key; if that entry's hash equals hash_key its value is overwritten
in place (key kept), otherwise a fresh entry is spliced in there.  Returns
the new chain and whether a new entry was created. -/
def insert_in_chain (func : K → Nat) (hash_key : Nat) (k : K) (v : V) :
    List (K × V) → List (K × V) × Bool
  | [] => ([(k, v)], true)
  | e :: rest =>
    if func e.1 ≥ hash_key then
      if func e.1 = hash_key then ((e.1, v) :: rest, false)
      else ((k, v) :: e :: rest, true)
    else
      let p := insert_in_chain func hash_key k v rest
      (e :: p.1, p.2)

/-- Chain-level effect of the rehash loop body in hash_table_resize:
find_previous_entry_for_key followed by an unconditional splice, i.e. the
entry is inserted in front of the first entry whose hash is ≥ its own. -/
def insert_before_first_ge (func : K → Nat) (hash_key : Nat) (e : K × V) :
    List (K × V) → List (K × V)
  | [] => [e]
  | c :: rest =>
    if func c.1 ≥ hash_key then e :: c :: rest
    else c :: insert_before_first_ge func hash_key e rest

/-- The rehash loop of hash_table_resize: every surviving entry, taken in
old-bucket-then-chain order, is re-threaded into the new bucket array. -/
def rehash_entries (func : K → Nat) (no_buckets_new : Nat)
    (acc : List (List (K × V))) : List (K × V) → List (List (K × V))
  | [] => acc
  | e :: rest =>
    let hash_key := func e.1
    let bucket := hash_key % no_buckets_new
    rehash_entries func no_buckets_new
      (acc.set bucket
        (insert_before_first_ge func hash_key e (acc.getD bucket [])))
      rest

/-- hash_table_resize: when size / no_buckets has reached the load factor
and a next prime exists, rebuild the bucket array at the next prime and
rehash every entry; otherwise return the table unchanged. -/
def hash_table_resize (ht : hash_table K V) : hash_table K V :=
  if mkRat ht.size ht.buckets.length ≥ ht.load_factor then
    match get_next_prime_number ht.buckets.length with
    | some no_buckets_new =>
      let buckets_new := rehash_entries ht.hash_function no_buckets_new
        (List.replicate no_buckets_new []) ht.buckets.flatten
      { ht with buckets := buckets_new }
    | none => ht
  else ht

/-- hash_table_insert: resize if necessary, then update in place or splice
a new entry at the hash-ordered position, bumping size only in the latter
case. -/
def hash_table_insert (ht : hash_table K V) (key : K) (value : V) :
    hash_table K V :=
  let ht := hash_table_resize ht
  let hash_key := ht.hash_function key
  let bucket := hash_key % ht.buckets.length
  let p := insert_in_chain ht.hash_function hash_key key value
    (ht.buckets.getD bucket [])
  { ht with buckets := ht.buckets.set bucket p.1,
            size := if p.2 then ht.size + 1 else ht.size }

/-- Chain-level effect of the unlink in hash_table_remove: drop the entry
that follows find_previous_entry_for_key's result, i.e. the first entry
whose hash is ≥ hash_key. -/
def chain_remove (func : K → Nat) (hash_key : Nat) :
    List (K × V) → List (K × V)
  | [] => []
  | e :: rest =>
    if func e.1 ≥ hash_key then rest else e :: chain_remove func hash_key rest

/-- hash_table_remove: test presence via hash_table_lookup; on a hit unlink
the entry after the predecessor and decrement size, otherwise change
nothing.  Returns the looked-up value (C: the out-parameter and the bool)
together with the resulting table. -/
def hash_table_remove (ht : hash_table K V) (key : K) :
    Option V × hash_table K V :=
  let hash_key := ht.hash_function key
  let bucket := hash_key % ht.buckets.length
  match hash_table_lookup ht key with
  | none => (none, ht)
  | some v =>
    let chain_new := chain_remove ht.hash_function hash_key
      (ht.buckets.getD bucket [])
    (some v, { ht with buckets := ht.buckets.set bucket chain_new,
                       size := ht.size - 1 })

/-- hash_table_size: the stored counter. -/
def hash_table_size (ht : hash_table K V) : Nat :=
  ht.size

/-- One iteration of the clear loop: detach and destroy every entry of
bucket i, decrementing size once per entry. -/
def clear_step (t : hash_table K V) (i : Nat) : hash_table K V :=
  { t with buckets := t.buckets.set i [],
           size := t.size - (t.buckets.getD i []).length }

/-- hash_table_clear: empty every chain, decrementing size once per
destroyed entry (Nat subtraction stands in for the size_t decrements). -/
def hash_table_clear (ht : hash_table K V) : hash_table K V :=
  (List.range ht.buckets.length).foldl clear_step ht

/-- hash_table_keys: append every entry's key, buckets in index order and
each chain front to back. -/
def hash_table_keys (ht : hash_table K V) : List K :=
  ht.buckets.flatten.map Prod.fst

/-- hash_table_values: same traversal, collecting the values. -/
def hash_table_values (ht : hash_table K V) : List V :=
  ht.buckets.flatten.map Prod.snd

/-- The loop of hash_table_all: while i < size and the running result is
still true, test the i-th key/value pair.  A positional get past the end
of the materialized lists (impossible when size is accurate) is modelled
as failure. -/
def all_loop (P : K → V → Bool) (keys : List K) (values : List V) :
    Nat → Nat → Bool
  | _, 0 => true
  | i, Nat.succ fuel =>
    match keys.get? i, values.get? i with
    | some k, some v => P k v && all_loop P keys values (i + 1) fuel
    | _, _ => false

/-- hash_table_all: materialize the key and value sequences, then test the
first size pairs positionally, short-circuiting on the first failure. -/
def hash_table_all (ht : hash_table K V) (P : K → V → Bool) : Bool :=
  all_loop P (hash_table_keys ht) (hash_table_values ht) 0 (hash_table_size ht)

/-- The write pattern of hash_table_values_arr: the slot written for the
j-th entry of bucket i is i + j (the C code's values[i + j] = &cursor->value),
a slot holding a reference (bucket, position) into the live table.  The C
array has size slots, calloc-zeroed (none); an index i + j past the end is
an out-of-bounds heap write in C, modelled here as a dropped write
(List.set out of range), which leaves the same in-bounds slots null either
way. -/
def fill_bucket (i j : Nat) :
    Nat → List (Option (Nat × Nat)) → List (Option (Nat × Nat))
  | 0, arr => arr
  | Nat.succ n, arr => fill_bucket i (j + 1) n (arr.set (i + j) (some (i, j)))

/-- The outer loop of hash_table_values_arr over bucket indices. -/
def fill_buckets : Nat → List Nat → List (Option (Nat × Nat)) →
    List (Option (Nat × Nat))
  | _, [], arr => arr
  | i, len :: rest, arr => fill_buckets (i + 1) rest (fill_bucket i 0 len arr)

/-- hash_table_values_arr: an array of size slots meant to hold a pointer
to every entry's value; each slot is none (null) until written. -/
def hash_table_values_arr (ht : hash_table K V) : List (Option (Nat × Nat)) :=
  fill_buckets 0 (ht.buckets.map List.length)
    (List.replicate (hash_table_size ht) none)

/-- The loop of hash_table_apply_to_all: for each i < size, read the i-th
key and the i-th value pointer and apply f through the pointer, mutating
the entry in place.  A null value pointer (slot never written) or a
positional key get past the end is a crash in C, modelled as none. -/
def apply_loop (f : K → V → V) (keys : List K) (arr : List (Option (Nat × Nat))) :
    Nat → Nat → hash_table K V → Option (hash_table K V)
  | _, 0, t => some t
  | i, Nat.succ fuel, t =>
    match keys.get? i, arr.getD i none with
    | some k, some bj =>
      match (t.buckets.getD bj.1 []).get? bj.2 with
      | some e =>
        let chain_new := (t.buckets.getD bj.1 []).set bj.2 (e.1, f k e.2)
        apply_loop f keys arr (i + 1) fuel
          { t with buckets := t.buckets.set bj.1 chain_new }
      | none => none
    | _, _ => none

/-- hash_table_apply_to_all: materialize the key list and the value-pointer
array, then apply f pairwise by position through the pointers. -/
def hash_table_apply_to_all (ht : hash_table K V) (f : K → V → V) :
    Option (hash_table K V) :=
  apply_loop f (hash_table_keys ht) (hash_table_values_arr ht) 0
    (hash_table_size ht) ht

/-- Follows the spec's words for lookup (section 4.2): walk the chain of
bucket hash(k) mod no_buckets and return the value of the first entry
whose stored hash equals hash(k); no match across the whole chain means
not found. -/
def lookupSpec (ht : hash_table K V) (key : K) : Option V :=
  ((ht.buckets.getD (ht.hash_function key % ht.buckets.length) []).find?
    (fun e => ht.hash_function e.1 == ht.hash_function key)).map Prod.snd

/-- Fold hash_table_insert over a list of keys, valuing each key with vf. -/
def insert_list (vf : K → V) (t : hash_table K V) (ks : List K) :
    hash_table K V :=
  ks.foldl (fun acc k => hash_table_insert acc k (vf k)) t

/-- The structural invariant every table built by the public operations
satisfies: a nonempty bucket array whose chains are hash-ordered. -/
structure WF (t : hash_table K V) : Prop where
  pos : 0 < t.buckets.length
  sorted : ∀ c ∈ t.buckets,
    List.Pairwise (fun a b => t.hash_function a.1 ≤ t.hash_function b.1) c

/-- The tables reachable through the public mutating interface, starting
from a successful creation. -/
inductive Reachable {K V : Type} : hash_table K V → Prop
  | create (n : Nat) (lf : ℚ) (f : K → Nat) (t : hash_table K V) :
      hash_table_create_dynamic n lf f = some t → Reachable t
  | insert (t : hash_table K V) (k : K) (v : V) :
      Reachable t → Reachable (hash_table_insert t k v)
  | remove (t : hash_table K V) (k : K) :
      Reachable t → Reachable (hash_table_remove t k).2
  | clear (t : hash_table K V) :
      Reachable t → Reachable (hash_table_clear t)
  | apply (t : hash_table K V) (f : K → V → V) (u : hash_table K V) :
      Reachable t → hash_table_apply_to_all t f = some u → Reachable u

/-- The table produced by the default constructor hash_table_create for
integer keys and values: 17 buckets, load factor 0.75, default hash. -/
def table17 : hash_table Int Int :=
  { load_factor := mkRat 3 4
    hash_function := default_hash_function
    size := 0
    buckets := List.replicate 17 [] }

/-- The spec's concrete default scenario, cut at step n: insert keys
0..n-1 into the default table, each with value equal to its key. -/
def demo_inserts (n : Nat) : hash_table Int Int :=
  insert_list (fun k => k) table17 ((List.range n).map Int.ofNat)

/-- A default table holding one entry, key 5 value 7, which lives in
bucket 5. -/
def tOne : hash_table Int Int := hash_table_insert table17 5 7

/-- A table at the largest prime bucket count with a low load factor. -/
def tBig : hash_table Nat Nat :=
  { load_factor := mkRat 1 2
    hash_function := fun k => k
    size := 0
    buckets := List.replicate 16381 [] }

/-! ### List helpers -/

theorem getD_set_self {α : Type _} {l : List α} {i : Nat} (a d : α)
    (h : i < l.length) : (l.set i a).getD i d = a := by
  simp [List.getD_eq_getElem?_getD, List.getElem?_set_self h]

theorem getD_set_ne {α : Type _} {l : List α} {i j : Nat} (a d : α)
    (h : i ≠ j) : (l.set i a).getD j d = l.getD j d := by
  simp [List.getD_eq_getElem?_getD, List.getElem?_set_ne h]

theorem getD_mem {α : Type _} {l : List α} {i : Nat} {d : α}
    (h : i < l.length) : l.getD i d ∈ l := by
  rw [List.getD_eq_getElem?_getD, List.getElem?_eq_getElem h]
  exact List.getElem_mem h

theorem getD_set_or {α : Type _} (l : List α) (i j : Nat) (a d : α) :
    (l.set i a).getD j d = l.getD j d ∨ (l.set i a).getD j d = a := by
  by_cases h : i = j
  · subst h
    by_cases hi : i < l.length
    · exact Or.inr (getD_set_self a d hi)
    · rw [List.set_eq_of_length_le (Nat.le_of_not_lt hi)]
      exact Or.inl rfl
  · exact Or.inl (getD_set_ne a d h)

/-! ### Chain-level lemmas -/

variable {func : K → Nat} {hash_key : Nat}

/-- After inserting k with hash hash_key, the scan for hash_key finds v:
every entry left in front of the updated or spliced position hashes
strictly below hash_key. -/
theorem chain_lookup_insert_self (k : K) (v : V) (hke : func k = hash_key)
    (c : List (K × V)) :
    chain_lookup func hash_key (insert_in_chain func hash_key k v c).1 = some v := by
  induction c with
  | nil => simp [insert_in_chain, chain_lookup, hke]
  | cons e rest ih =>
    by_cases h1 : func e.1 ≥ hash_key
    · by_cases h2 : func e.1 = hash_key
      · simp [insert_in_chain, h1, h2, chain_lookup]
      · simp [insert_in_chain, h1, h2, chain_lookup, hke]
    · have hne : func e.1 ≠ hash_key := fun h => h1 (le_of_eq h.symm)
      simp [insert_in_chain, h1, chain_lookup, hne, ih]

/-- Inserting a key of a different hash never disturbs the scan for
hash_key. -/
theorem chain_lookup_insert_ne (k : K) (v : V) {hk : Nat}
    (hke : func k = hk) (hne : hk ≠ hash_key) (c : List (K × V)) :
    chain_lookup func hash_key (insert_in_chain func hk k v c).1 =
      chain_lookup func hash_key c := by
  induction c with
  | nil => simp [insert_in_chain, chain_lookup, hke, hne]
  | cons e rest ih =>
    by_cases h1 : func e.1 ≥ hk
    · by_cases h2 : func e.1 = hk
      · simp [insert_in_chain, h1, h2, chain_lookup, hne]
      · simp [insert_in_chain, h1, h2, chain_lookup, hke, hne]
    · simp [insert_in_chain, h1, chain_lookup, ih]

/-- A hash already present in a hash-ordered chain means the insert is an
in-place update: no new entry. -/
theorem insert_in_chain_no_add (k : K) (v : V) (c : List (K × V))
    (hsorted : List.Pairwise (fun a b => func a.1 ≤ func b.1) c)
    (hmem : ∃ e ∈ c, func e.1 = hash_key) :
    (insert_in_chain func hash_key k v c).2 = false := by
  induction c with
  | nil => simp at hmem
  | cons e rest ih =>
    rcases hmem with ⟨x, hx, hxh⟩
    by_cases h1 : func e.1 ≥ hash_key
    · by_cases h2 : func e.1 = hash_key
      · simp [insert_in_chain, h1, h2]
      · exfalso
        have he : hash_key < func e.1 := lt_of_le_of_ne h1 (fun h => h2 h.symm)
        rcases List.mem_cons.mp hx with h | h
        · exact h2 (h ▸ hxh)
        · have := (List.pairwise_cons.mp hsorted).1 x h
          omega
    · have hxe : x ∈ rest := by
        rcases List.mem_cons.mp hx with h | h
        · exact absurd (h ▸ hxh) (fun hh => h1 (le_of_eq hh.symm))
        · exact h
      have := ih (List.pairwise_cons.mp hsorted).2 ⟨x, hxe, hxh⟩
      simp [insert_in_chain, h1, this]

/-- A hash absent from the chain means the insert splices a new entry. -/
theorem insert_in_chain_add (k : K) (v : V) (c : List (K × V))
    (habs : ∀ e ∈ c, func e.1 ≠ hash_key) :
    (insert_in_chain func hash_key k v c).2 = true := by
  induction c with
  | nil => simp [insert_in_chain]
  | cons e rest ih =>
    have h2 : func e.1 ≠ hash_key := habs e (List.mem_cons_self e rest)
    by_cases h1 : func e.1 ≥ hash_key
    · simp [insert_in_chain, h1, h2]
    · have := ih (fun x hx => habs x (List.mem_cons_of_mem e hx))
      simp [insert_in_chain, h1, this]

/-- Every entry of the chain produced by the insert either carries the
inserted hash or the hash of an entry already in the chain. -/
theorem insert_in_chain_hashes (k : K) (v : V) (c : List (K × V)) :
    ∀ x ∈ (insert_in_chain func hash_key k v c).1,
      x.1 = k ∨ ∃ e ∈ c, x.1 = e.1 := by
  induction c with
  | nil =>
    intro x hx
    simp [insert_in_chain] at hx
    exact Or.inl (by rw [hx])
  | cons e rest ih =>
    intro x hx
    by_cases h1 : func e.1 ≥ hash_key
    · by_cases h2 : func e.1 = hash_key
      · simp [insert_in_chain, h1, h2] at hx
        rcases hx with hx | hx
        · exact Or.inr ⟨e, List.mem_cons_self e rest, by rw [hx]⟩
        · exact Or.inr ⟨x, List.mem_cons_of_mem e hx, rfl⟩
      · simp [insert_in_chain, h1, h2] at hx
        rcases hx with hx | hx | hx
        · exact Or.inl (by rw [hx])
        · exact Or.inr ⟨e, List.mem_cons_self e rest, by rw [hx]⟩
        · exact Or.inr ⟨x, List.mem_cons_of_mem e hx, rfl⟩
    · simp [insert_in_chain, h1] at hx
      rcases hx with hx | hx
      · exact Or.inr ⟨e, List.mem_cons_self e rest, by rw [hx]⟩
      · rcases ih x hx with h | ⟨e0, he0, hh⟩
        · exact Or.inl h
        · exact Or.inr ⟨e0, List.mem_cons_of_mem e he0, hh⟩

/-- The insert keeps the chain hash-ordered. -/
theorem insert_in_chain_sorted (k : K) (v : V) (hke : func k = hash_key)
    (c : List (K × V))
    (hsorted : List.Pairwise (fun a b => func a.1 ≤ func b.1) c) :
    List.Pairwise (fun a b => func a.1 ≤ func b.1)
      (insert_in_chain func hash_key k v c).1 := by
  induction c with
  | nil => simp [insert_in_chain]
  | cons e rest ih =>
    rcases List.pairwise_cons.mp hsorted with ⟨hhead, htail⟩
    by_cases h1 : func e.1 ≥ hash_key
    · by_cases h2 : func e.1 = hash_key
      · simp only [insert_in_chain, if_pos h1, if_pos h2]
        exact List.pairwise_cons.mpr ⟨by simpa [h2] using hhead, htail⟩
      · simp only [insert_in_chain, if_pos h1, if_neg h2]
        refine List.pairwise_cons.mpr ⟨?_, hsorted⟩
        intro x hx
        rcases List.mem_cons.mp hx with hx | hx
        · rw [hx, hke]; exact h1
        · exact le_trans (hke ▸ h1) (hhead x hx)
    · simp only [insert_in_chain, if_neg h1]
      refine List.pairwise_cons.mpr ⟨?_, ih htail⟩
      intro x hx
      have hlt : func e.1 < hash_key := Nat.lt_of_not_le h1
      rcases insert_in_chain_hashes k v rest x hx with h | ⟨e0, he0, hh⟩
      · rw [h, hke]; exact Nat.le_of_lt hlt
      · rw [hh]; exact hhead e0 he0

/-- The inserted hash is present in the resulting chain. -/
theorem insert_in_chain_mem (k : K) (v : V) (hke : func k = hash_key)
    (c : List (K × V)) :
    ∃ x ∈ (insert_in_chain func hash_key k v c).1, func x.1 = hash_key := by
  induction c with
  | nil => exact ⟨(k, v), by simp [insert_in_chain], hke⟩
  | cons e rest ih =>
    by_cases h1 : func e.1 ≥ hash_key
    · by_cases h2 : func e.1 = hash_key
      · exact ⟨(e.1, v), by simp [insert_in_chain, h1, h2], h2⟩
      · exact ⟨(k, v), by simp [insert_in_chain, h1, h2], hke⟩
    · rcases ih with ⟨x, hx, hxh⟩
      refine ⟨x, ?_, hxh⟩
      simp only [insert_in_chain, if_neg h1]
      exact List.mem_cons_of_mem e hx

/-- The rehash splice keeps the spliced entry in the chain. -/
theorem insert_before_first_ge_mem_self (e : K × V) (c : List (K × V)) :
    e ∈ insert_before_first_ge func hash_key e c := by
  induction c with
  | nil => simp [insert_before_first_ge]
  | cons x rest ih =>
    by_cases h1 : func x.1 ≥ hash_key
    · simp [insert_before_first_ge, h1]
    · simp only [insert_before_first_ge, if_neg h1]
      exact List.mem_cons_of_mem x ih

/-- The rehash splice keeps every existing entry in the chain. -/
theorem insert_before_first_ge_mem_mono (e x : K × V) (c : List (K × V))
    (hx : x ∈ c) : x ∈ insert_before_first_ge func hash_key e c := by
  induction c with
  | nil => simp at hx
  | cons y rest ih =>
    by_cases h1 : func y.1 ≥ hash_key
    · simp only [insert_before_first_ge, if_pos h1]
      exact List.mem_cons_of_mem e hx
    · simp only [insert_before_first_ge, if_neg h1]
      rcases List.mem_cons.mp hx with h | h
      · exact h ▸ List.mem_cons_self y _
      · exact List.mem_cons_of_mem y (ih h)

/-- Conversely, the spliced chain holds nothing but the new entry and the
old ones. -/
theorem insert_before_first_ge_mem_elim (e x : K × V) (c : List (K × V))
    (hx : x ∈ insert_before_first_ge func hash_key e c) : x = e ∨ x ∈ c := by
  induction c with
  | nil => simpa [insert_before_first_ge] using hx
  | cons y rest ih =>
    by_cases h1 : func y.1 ≥ hash_key
    · simp only [insert_before_first_ge, if_pos h1] at hx
      rcases List.mem_cons.mp hx with h | h
      · exact Or.inl h
      · exact Or.inr h
    · simp only [insert_before_first_ge, if_neg h1] at hx
      rcases List.mem_cons.mp hx with h | h
      · exact Or.inr (h ▸ List.mem_cons_self y _)
      · rcases ih h with h | h
        · exact Or.inl h
        · exact Or.inr (List.mem_cons_of_mem y h)

/-- The rehash splice keeps each chain hash-ordered. -/
theorem insert_before_first_ge_sorted (e : K × V)
    (hke : func e.1 = hash_key) (c : List (K × V))
    (hsorted : List.Pairwise (fun a b => func a.1 ≤ func b.1) c) :
    List.Pairwise (fun a b => func a.1 ≤ func b.1)
      (insert_before_first_ge func hash_key e c) := by
  induction c with
  | nil => simp [insert_before_first_ge]
  | cons y rest ih =>
    rcases List.pairwise_cons.mp hsorted with ⟨hhead, htail⟩
    by_cases h1 : func y.1 ≥ hash_key
    · simp only [insert_before_first_ge, if_pos h1]
      refine List.pairwise_cons.mpr ⟨?_, hsorted⟩
      intro x hx
      rcases List.mem_cons.mp hx with h | h
      · rw [h, hke]; exact h1
      · exact le_trans (hke ▸ h1) (hhead x h)
    · simp only [insert_before_first_ge, if_neg h1]
      refine List.pairwise_cons.mpr ⟨?_, ih htail⟩
      intro x hx
      have hlt : func y.1 < hash_key := Nat.lt_of_not_le h1
      rcases insert_before_first_ge_mem_elim e x rest hx with h | h
      · rw [h, hke]; exact Nat.le_of_lt hlt
      · exact hhead x h

/-- The unlink step only ever drops entries. -/
theorem chain_remove_sublist (c : List (K × V)) :
    List.Sublist (chain_remove func hash_key c) c := by
  induction c with
  | nil => simp [chain_remove]
  | cons e rest ih =>
    by_cases h1 : func e.1 ≥ hash_key
    · simp only [chain_remove, if_pos h1]
      exact List.sublist_cons_self e rest
    · simp only [chain_remove, if_neg h1]
      exact List.Sublist.cons₂ e ih

/-- The chain scan fails exactly when no entry carries the sought hash. -/
theorem chain_lookup_eq_none (c : List (K × V)) :
    chain_lookup func hash_key c = none ↔ ∀ e ∈ c, func e.1 ≠ hash_key := by
  induction c with
  | nil => simp [chain_lookup]
  | cons e rest ih =>
    by_cases h : func e.1 = hash_key
    · simp [chain_lookup, h]
    · simp [chain_lookup, h, ih]

/-- The chain scan is first-match-by-hash. -/
theorem chain_lookup_eq_find (c : List (K × V)) :
    chain_lookup func hash_key c =
      (c.find? (fun e => func e.1 == hash_key)).map Prod.snd := by
  induction c with
  | nil => simp [chain_lookup]
  | cons e rest ih =>
    by_cases h : func e.1 = hash_key
    · simp [chain_lookup, h]
    · simp [chain_lookup, h, ih]

theorem getD_cases {α : Type _} (l : List α) (i : Nat) (d : α) :
    l.getD i d ∈ l ∨ l.getD i d = d := by
  by_cases h : i < l.length
  · exact Or.inl (getD_mem h)
  · rw [List.getD_eq_getElem?_getD, List.getElem?_eq_none (Nat.le_of_not_lt h)]
    exact Or.inr rfl

/-! ### Rehash lemmas -/

/-- The rehash loop never changes the number of buckets. -/
theorem rehash_entries_length (f : K → Nat) (nb : Nat)
    (entries : List (K × V)) :
    ∀ acc, (rehash_entries f nb acc entries).length = acc.length := by
  induction entries with
  | nil => intro acc; simp [rehash_entries]
  | cons e rest ih =>
    intro acc
    simp only [rehash_entries]
    rw [ih]
    exact List.length_set acc _ _

/-- The rehash loop keeps every chain hash-ordered. -/
theorem rehash_entries_sorted (f : K → Nat) (nb : Nat)
    (entries : List (K × V)) :
    ∀ acc, (∀ c ∈ acc, List.Pairwise (fun a b => f a.1 ≤ f b.1) c) →
      ∀ c ∈ rehash_entries f nb acc entries,
        List.Pairwise (fun a b => f a.1 ≤ f b.1) c := by
  induction entries with
  | nil => intro acc hacc; simpa [rehash_entries] using hacc
  | cons e rest ih =>
    intro acc hacc
    simp only [rehash_entries]
    apply ih
    intro c hc
    rcases List.mem_or_eq_of_mem_set hc with h | h
    · exact hacc c h
    · subst h
      apply insert_before_first_ge_sorted e rfl
      rcases getD_cases acc (f e.1 % nb) [] with h | h
      · exact hacc _ h
      · rw [h]; exact List.Pairwise.nil

/-- Entries already filed into a bucket survive the rest of the rehash
loop. -/
theorem rehash_entries_mem_persist (f : K → Nat) (nb : Nat)
    (entries : List (K × V)) (b : Nat) (P : K × V → Prop) :
    ∀ acc, (∃ x ∈ acc.getD b [], P x) →
      ∃ x ∈ (rehash_entries f nb acc entries).getD b [], P x := by
  induction entries with
  | nil => intro acc hacc; simpa [rehash_entries] using hacc
  | cons e rest ih =>
    intro acc hacc
    simp only [rehash_entries]
    apply ih
    rcases hacc with ⟨x, hx, hPx⟩
    by_cases hb : f e.1 % nb = b
    · subst hb
      by_cases hlen : f e.1 % nb < acc.length
      · rw [getD_set_self _ _ hlen]
        exact ⟨x, insert_before_first_ge_mem_mono _ x _ hx, hPx⟩
      · rw [List.set_eq_of_length_le (Nat.le_of_not_lt hlen)]
        exact ⟨x, hx, hPx⟩
    · rw [getD_set_ne _ _ hb]
      exact ⟨x, hx, hPx⟩

/-- Every rehashed entry ends up in the bucket its hash selects in the new
array. -/
theorem rehash_entries_mem (f : K → Nat) (nb : Nat) (hnb : 0 < nb)
    (x0 : K × V) (hk : Nat) (hx0 : f x0.1 = hk) (entries : List (K × V)) :
    ∀ acc, acc.length = nb → x0 ∈ entries →
      ∃ x ∈ (rehash_entries f nb acc entries).getD (hk % nb) [],
        f x.1 = hk := by
  induction entries with
  | nil => intro acc _ h; simp at h
  | cons e rest ih =>
    intro acc hlen hmem
    rcases List.mem_cons.mp hmem with h | h
    · subst h
      simp only [rehash_entries, hx0]
      apply rehash_entries_mem_persist
      have hlt : hk % nb < acc.length := by
        rw [hlen]; exact Nat.mod_lt hk hnb
      rw [getD_set_self _ _ hlt]
      exact ⟨x0, insert_before_first_ge_mem_self x0 _, hx0⟩
    · simp only [rehash_entries]
      exact ih _ (by rw [List.length_set]; exact hlen) h

/-! ### Resize lemmas -/

/-- A successor produced by the prime scan is an element of the array. -/
theorem get_next_prime_aux_mem :
    ∀ (l : List Nat) (current q : Nat),
      get_next_prime_aux l current = some q → q ∈ l
  | [], _, _ => by simp [get_next_prime_aux]
  | [_], _, _ => by simp [get_next_prime_aux]
  | p :: r :: rest, current, q => by
    simp only [get_next_prime_aux]
    by_cases h : p = current
    · rw [if_pos h]
      intro hq
      rw [Option.some_inj.mp hq]
      exact List.mem_cons_of_mem p (List.mem_cons_self q rest)
    · rw [if_neg h]
      intro hq
      exact List.mem_cons_of_mem p (get_next_prime_aux_mem (r :: rest) current q hq)

/-- The next prime, when it exists, is positive. -/
theorem get_next_prime_number_pos {current q : Nat}
    (h : get_next_prime_number current = some q) : 0 < q := by
  have hq : q ∈ primes := get_next_prime_aux_mem primes current q h
  have hall : ∀ p ∈ primes, 0 < p := by decide
  exact hall q hq

/-- Resizing never changes the stored entry count. -/
theorem hash_table_resize_size (ht : hash_table K V) :
    (hash_table_resize ht).size = ht.size := by
  unfold hash_table_resize
  split
  · split <;> rfl
  · rfl

/-- Resizing never changes the hash function. -/
theorem hash_table_resize_hash_function (ht : hash_table K V) :
    (hash_table_resize ht).hash_function = ht.hash_function := by
  unfold hash_table_resize
  split
  · split <;> rfl
  · rfl

/-- Resizing keeps the bucket array nonempty. -/
theorem hash_table_resize_pos (ht : hash_table K V)
    (h : 0 < ht.buckets.length) :
    0 < (hash_table_resize ht).buckets.length := by
  unfold hash_table_resize
  split
  · split
    · rename_i nb hnb
      simpa [rehash_entries_length] using get_next_prime_number_pos hnb
    · exact h
  · exact h

/-- With no next prime available, resize returns the table unchanged. -/
theorem hash_table_resize_eq_self (ht : hash_table K V)
    (h : get_next_prime_number ht.buckets.length = none) :
    hash_table_resize ht = ht := by
  unfold hash_table_resize
  split
  · rw [h]
  · rfl

/-- Resizing keeps every chain hash-ordered. -/
theorem hash_table_resize_sorted (ht : hash_table K V)
    (hs : ∀ c ∈ ht.buckets,
      List.Pairwise (fun a b => ht.hash_function a.1 ≤ ht.hash_function b.1) c) :
    ∀ c ∈ (hash_table_resize ht).buckets,
      List.Pairwise (fun a b => ht.hash_function a.1 ≤ ht.hash_function b.1) c := by
  unfold hash_table_resize
  split
  · split
    · rename_i nb hnb
      apply rehash_entries_sorted
      intro c hc
      rw [List.eq_of_mem_replicate hc]
      exact List.Pairwise.nil
    · exact hs
  · exact hs

/-- An entry hash present in its bucket before a resize is present in the
bucket its hash selects afterwards. -/
theorem hash_table_resize_mem (ht : hash_table K V) (hk : Nat)
    (hpos : 0 < ht.buckets.length)
    (hmem : ∃ x ∈ ht.buckets.getD (hk % ht.buckets.length) [],
      ht.hash_function x.1 = hk) :
    ∃ x ∈ (hash_table_resize ht).buckets.getD
        (hk % (hash_table_resize ht).buckets.length) [],
      ht.hash_function x.1 = hk := by
  unfold hash_table_resize
  split
  · split
    · rename_i nb hnb
      rcases hmem with ⟨x0, hx0, hx0h⟩
      have hchain : ht.buckets.getD (hk % ht.buckets.length) [] ∈ ht.buckets :=
        getD_mem (Nat.mod_lt hk hpos)
      have hflat : x0 ∈ ht.buckets.flatten :=
        List.mem_flatten_of_mem hchain hx0
      have hnbpos : 0 < nb := get_next_prime_number_pos hnb
      have hlen : (List.replicate nb ([] : List (K × V))).length = nb := by
        simp
      simp only [rehash_entries_length, List.length_replicate]
      exact rehash_entries_mem ht.hash_function nb hnbpos x0 hk hx0h
        ht.buckets.flatten (List.replicate nb []) hlen hflat
    · exact hmem
  · exact hmem

/-! ### Insert lemmas -/

/-- Inserting never changes the hash function. -/
theorem hash_table_insert_hash_function (ht : hash_table K V) (k : K) (v : V) :
    (hash_table_insert ht k v).hash_function = ht.hash_function := by
  simp [hash_table_insert, hash_table_resize_hash_function]

/-- Inserting keeps the bucket count of the (possibly resized) table. -/
theorem hash_table_insert_length (ht : hash_table K V) (k : K) (v : V) :
    (hash_table_insert ht k v).buckets.length =
      (hash_table_resize ht).buckets.length := by
  simp [hash_table_insert]

/-- Inserting keeps the bucket array nonempty. -/
theorem hash_table_insert_pos (ht : hash_table K V) (k : K) (v : V)
    (hpos : 0 < ht.buckets.length) :
    0 < (hash_table_insert ht k v).buckets.length := by
  rw [hash_table_insert_length]
  exact hash_table_resize_pos ht hpos

/-- Round-trip at the level of an arbitrary table: inserting and then
looking up the same key yields the inserted value. -/
theorem lookup_insert_self (ht : hash_table K V) (k : K) (v : V)
    (hpos : 0 < ht.buckets.length) :
    hash_table_lookup (hash_table_insert ht k v) k = some v := by
  have hpos2 := hash_table_resize_pos ht hpos
  unfold hash_table_lookup hash_table_insert
  simp only [List.length_set]
  rw [getD_set_self _ _ (Nat.mod_lt _ hpos2)]
  exact chain_lookup_insert_self k v rfl _

/-- After an insert, the bucket selected by the key hash holds an entry
with that hash. -/
theorem hash_table_insert_mem (ht : hash_table K V) (k : K) (v : V)
    (hpos : 0 < ht.buckets.length) :
    ∃ x ∈ (hash_table_insert ht k v).buckets.getD
        (ht.hash_function k % (hash_table_insert ht k v).buckets.length) [],
      ht.hash_function x.1 = ht.hash_function k := by
  have hpos2 := hash_table_resize_pos ht hpos
  have hf := hash_table_resize_hash_function ht
  unfold hash_table_insert
  simp only [List.length_set, hf]
  rw [getD_set_self _ _ (Nat.mod_lt _ hpos2)]
  exact insert_in_chain_mem k v rfl _

/-- Inserting keeps every chain hash-ordered. -/
theorem hash_table_insert_sorted (ht : hash_table K V) (k : K) (v : V)
    (hs : ∀ c ∈ ht.buckets,
      List.Pairwise (fun a b => ht.hash_function a.1 ≤ ht.hash_function b.1) c) :
    ∀ c ∈ (hash_table_insert ht k v).buckets,
      List.Pairwise (fun a b => ht.hash_function a.1 ≤ ht.hash_function b.1) c := by
  have hs2 := hash_table_resize_sorted ht hs
  have hf := hash_table_resize_hash_function ht
  unfold hash_table_insert
  intro c hc
  simp only [hf] at hc
  rcases List.mem_or_eq_of_mem_set hc with h | h
  · exact hs2 c h
  · subst h
    rw [← hf]
    apply insert_in_chain_sorted _ _ rfl
    rw [hf]
    rcases getD_cases (hash_table_resize ht).buckets
        (ht.hash_function k % (hash_table_resize ht).buckets.length) [] with h | h
    · exact hs2 _ h
    · rw [h]; exact List.Pairwise.nil

/-- When the key hash is already present in its bucket of a hash-ordered
table, the insert is an in-place update and the size is unchanged. -/
theorem hash_table_insert_size_update (ht : hash_table K V) (k : K) (v : V)
    (hpos : 0 < ht.buckets.length)
    (hs : ∀ c ∈ ht.buckets,
      List.Pairwise (fun a b => ht.hash_function a.1 ≤ ht.hash_function b.1) c)
    (hmem : ∃ x ∈ ht.buckets.getD
        (ht.hash_function k % ht.buckets.length) [],
      ht.hash_function x.1 = ht.hash_function k) :
    (hash_table_insert ht k v).size = ht.size := by
  have hmem2 := hash_table_resize_mem ht (ht.hash_function k) hpos hmem
  have hs2 := hash_table_resize_sorted ht hs
  have hf := hash_table_resize_hash_function ht
  have hsize := hash_table_resize_size ht
  unfold hash_table_insert
  simp only [hf]
  have hsorted : List.Pairwise
      (fun a b => ht.hash_function a.1 ≤ ht.hash_function b.1)
      ((hash_table_resize ht).buckets.getD
        (ht.hash_function k % (hash_table_resize ht).buckets.length) []) := by
    rcases getD_cases (hash_table_resize ht).buckets
        (ht.hash_function k % (hash_table_resize ht).buckets.length) [] with h | h
    · exact hs2 _ h
    · rw [h]; exact List.Pairwise.nil
  rw [insert_in_chain_no_add k v _ hsorted hmem2]
  simpa using hsize

/-- When the key hash is absent from its bucket and no resize fires, the
insert splices a new entry and the size grows by one. -/
theorem hash_table_insert_size_add (ht : hash_table K V) (k : K) (v : V)
    (hres : hash_table_resize ht = ht)
    (habs : ∀ x ∈ ht.buckets.getD
        (ht.hash_function k % ht.buckets.length) [],
      ht.hash_function x.1 ≠ ht.hash_function k) :
    (hash_table_insert ht k v).size = ht.size + 1 := by
  unfold hash_table_insert
  rw [hres]
  simp only [insert_in_chain_add k v _ habs]
  simp

/-- With no resize firing, inserting one key does not disturb the lookup
of any key of a different hash. -/
theorem hash_table_insert_lookup_ne (ht : hash_table K V) (k : K) (v : V)
    (hres : hash_table_resize ht = ht) (hpos : 0 < ht.buckets.length)
    (k' : K) (hne : ht.hash_function k' ≠ ht.hash_function k) :
    hash_table_lookup (hash_table_insert ht k v) k' =
      hash_table_lookup ht k' := by
  unfold hash_table_insert hash_table_lookup
  rw [hres]
  simp only [List.length_set]
  by_cases hb : ht.hash_function k' % ht.buckets.length =
      ht.hash_function k % ht.buckets.length
  · rw [hb, getD_set_self _ _ (Nat.mod_lt _ hpos)]
    exact chain_lookup_insert_ne k v rfl (fun h => hne h.symm) _
  · rw [getD_set_ne _ _ (fun h => hb h.symm)]

/-- With no resize firing, every entry after an insert either is the new
key or carries a key already stored. -/
theorem hash_table_insert_flatten (ht : hash_table K V) (k : K) (v : V)
    (hres : hash_table_resize ht = ht) :
    ∀ x ∈ (hash_table_insert ht k v).buckets.flatten,
      x.1 = k ∨ ∃ e ∈ ht.buckets.flatten, x.1 = e.1 := by
  intro x hx
  unfold hash_table_insert at hx
  rw [hres] at hx
  rcases List.mem_flatten.mp hx with ⟨c, hc, hxc⟩
  rcases List.mem_or_eq_of_mem_set hc with h | h
  · exact Or.inr ⟨x, List.mem_flatten_of_mem h hxc, rfl⟩
  · subst h
    rcases insert_in_chain_hashes k v _ x hxc with h | ⟨e, he, hh⟩
    · exact Or.inl h
    · rcases getD_cases ht.buckets
          (ht.hash_function k % ht.buckets.length) [] with hg | hg
      · exact Or.inr ⟨e, List.mem_flatten_of_mem hg he, hh⟩
      · rw [hg] at he; simp at he

/-! ### Remove and clear lemmas -/

/-- A remove is either the identity (key absent) or one unlink at the
key's bucket. -/
theorem hash_table_remove_snd (ht : hash_table K V) (k : K) :
    (hash_table_remove ht k).2 = ht ∨
    (hash_table_remove ht k).2 =
      { ht with
        buckets := ht.buckets.set (ht.hash_function k % ht.buckets.length)
          (chain_remove ht.hash_function (ht.hash_function k)
            (ht.buckets.getD (ht.hash_function k % ht.buckets.length) [])),
        size := ht.size - 1 } := by
  unfold hash_table_remove
  cases hl : hash_table_lookup ht k with
  | none => exact Or.inl rfl
  | some v => exact Or.inr rfl

/-- Removing an absent key returns false and leaves the table unchanged. -/
theorem hash_table_remove_of_lookup_none (ht : hash_table K V) (k : K)
    (h : hash_table_lookup ht k = none) :
    hash_table_remove ht k = (none, ht) := by
  unfold hash_table_remove
  rw [h]

/-- The clear loop, over any index list: bucket count and hash function
are untouched and every chain is an old chain or empty. -/
theorem clear_foldl_props (l : List Nat) :
    ∀ t : hash_table K V,
      (l.foldl clear_step t).buckets.length = t.buckets.length ∧
      (l.foldl clear_step t).hash_function = t.hash_function ∧
      (∀ c ∈ (l.foldl clear_step t).buckets, c ∈ t.buckets ∨ c = []) := by
  induction l with
  | nil => intro t; exact ⟨rfl, rfl, fun c hc => Or.inl hc⟩
  | cons i rest ih =>
    intro t
    rcases ih (clear_step t i) with ⟨h1, h2, h3⟩
    refine ⟨?_, h2, ?_⟩
    · rw [List.foldl_cons, h1]
      exact List.length_set t.buckets i []
    · intro c hc
      rcases h3 c hc with h | h
      · rcases List.mem_or_eq_of_mem_set h with h | h
        · exact Or.inl h
        · exact Or.inr h
      · exact Or.inr h

/-! ### Helpers for apply_to_all -/

theorem set_get?_self {α : Type _} :
    ∀ {l : List α} {n : Nat} {a : α}, l.get? n = some a → l.set n a = l
  | [], n, a => by simp
  | x :: rest, 0, a => by
    intro h
    simp at h
    simp [List.set, h]
  | x :: rest, Nat.succ n, a => by
    intro h
    simp only [List.get?] at h
    simp [List.set, set_get?_self h]

theorem map_fst_set {l : List (K × V)} {j : Nat} {e : K × V} {w : V}
    (h : l.get? j = some e) :
    (l.set j (e.1, w)).map Prod.fst = l.map Prod.fst := by
  rw [List.map_set]
  apply set_get?_self
  induction l generalizing j with
  | nil => simp at h
  | cons x rest ih =>
    cases j with
    | zero => simp at h; simp [h]
    | succ j =>
      simp only [List.get?] at h
      simpa using ih h

/-- A successful positional get into the materialized chain pins the
bucket index inside the array. -/
theorem getD_get?_some_lt {l : List (List (K × V))} {b j : Nat}
    {e : K × V} (h : (l.getD b []).get? j = some e) : b < l.length := by
  by_contra hb
  rw [List.getD_eq_getElem?_getD, List.getElem?_eq_none (Nat.le_of_not_lt hb)] at h
  simp at h

/-- The apply loop, when it completes, only rewrites values in place:
the hash function, load factor, size, and the per-chain key sequences are
exactly those of the starting table. -/
theorem apply_loop_shape (f : K → V → V) (keys : List K)
    (arr : List (Option (Nat × Nat))) :
    ∀ (fuel i : Nat) (t u : hash_table K V),
      apply_loop f keys arr i fuel t = some u →
      u.hash_function = t.hash_function ∧ u.load_factor = t.load_factor ∧
      u.size = t.size ∧
      u.buckets.map (List.map Prod.fst) = t.buckets.map (List.map Prod.fst) := by
  intro fuel
  induction fuel with
  | zero =>
    intro i t u h
    simp only [apply_loop] at h
    obtain rfl := Option.some_inj.mp h
    exact ⟨rfl, rfl, rfl, rfl⟩
  | succ fuel ih =>
    intro i t u h
    simp only [apply_loop] at h
    cases hk : keys.get? i with
    | none => rw [hk] at h; simp at h
    | some k =>
      rw [hk] at h
      cases ha : arr.getD i none with
      | none => rw [ha] at h; simp at h
      | some bj =>
        rw [ha] at h
        dsimp only at h
        cases he : (t.buckets.getD bj.1 []).get? bj.2 with
        | none => rw [he] at h; simp at h
        | some e =>
          rw [he] at h
          simp only at h
          rcases ih (i + 1) _ u h with ⟨h1, h2, h3, h4⟩
          refine ⟨h1, h2, h3, ?_⟩
          rw [h4]
          simp only [List.map_set]
          have hinner : ((t.buckets.getD bj.1 []).map Prod.fst).set bj.2 e.1 =
              (t.buckets.getD bj.1 []).map Prod.fst := by
            apply set_get?_self
            rw [List.get?_eq_getElem?, List.getElem?_map]
            rw [← List.get?_eq_getElem?, he]
            rfl
          rw [hinner]
          apply set_get?_self
          have hb : bj.1 < t.buckets.length := getD_get?_some_lt he
          rw [List.get?_eq_getElem?, List.getElem?_map]
          simp [List.getD_eq_getElem?_getD, List.getElem?_eq_getElem hb]

/-- hash_table_apply_to_all, when it completes, keeps the table's shape:
hash function, load factor, size, and every chain's key sequence. -/
theorem hash_table_apply_to_all_shape (ht : hash_table K V) (f : K → V → V)
    (u : hash_table K V) (h : hash_table_apply_to_all ht f = some u) :
    u.hash_function = ht.hash_function ∧ u.load_factor = ht.load_factor ∧
    u.size = ht.size ∧
    u.buckets.map (List.map Prod.fst) = ht.buckets.map (List.map Prod.fst) := by
  unfold hash_table_apply_to_all at h
  exact apply_loop_shape f _ _ _ 0 ht u h

/-! ### Well-formedness and reachability -/

/-- Unpacking a successful creation. -/
theorem create_dynamic_some {n : Nat} {lf : ℚ} {f : K → Nat}
    {t : hash_table K V} (h : hash_table_create_dynamic n lf f = some t) :
    is_number_in_prime_library n = true ∧ ¬lf ≤ 0 ∧
      t = { load_factor := lf, hash_function := f, size := 0,
            buckets := List.replicate n [] } := by
  unfold hash_table_create_dynamic at h
  by_cases h1 : is_number_in_prime_library n = false
  · rw [if_pos h1] at h; exact absurd h (by simp)
  · rw [if_neg h1] at h
    by_cases h2 : lf ≤ 0
    · rw [if_pos h2] at h; exact absurd h (by simp)
    · rw [if_neg h2] at h
      refine ⟨by simpa using h1, h2, (Option.some_inj.mp h).symm⟩

/-- Conversely, valid parameters make creation succeed. -/
theorem create_dynamic_eq_some {n : Nat} {lf : ℚ} (f : K → Nat)
    (h1 : is_number_in_prime_library n = true) (h2 : ¬lf ≤ 0) :
    hash_table_create_dynamic (V := V) n lf f =
      some { load_factor := lf, hash_function := f, size := 0,
             buckets := List.replicate n [] } := by
  unfold hash_table_create_dynamic
  rw [h1]
  simp [h2]

/-- A bucket count accepted by the library is positive. -/
theorem in_prime_library_pos {n : Nat}
    (h : is_number_in_prime_library n = true) : 0 < n := by
  have hn : n ∈ primes := by
    rcases List.any_eq_true.mp h with ⟨p, hp, hpn⟩
    have : p = n := by simpa using hpn
    exact this ▸ hp
  have hall : ∀ p ∈ primes, 0 < p := by decide
  exact hall n hn

/-- Every reachable table is well-formed. -/
theorem reachable_wf {t : hash_table K V} (h : Reachable t) : WF t := by
  induction h with
  | create n lf f t hc =>
    rcases create_dynamic_some hc with ⟨h1, _, ht⟩
    subst ht
    refine ⟨by simpa using in_prime_library_pos h1, ?_⟩
    intro c hc2
    rw [List.eq_of_mem_replicate hc2]
    exact List.Pairwise.nil
  | insert t k v _ ih =>
    refine ⟨hash_table_insert_pos t k v ih.pos, ?_⟩
    rw [hash_table_insert_hash_function]
    exact hash_table_insert_sorted t k v ih.sorted
  | remove t k _ ih =>
    rcases hash_table_remove_snd t k with h | h
    · rw [h]; exact ih
    · rw [h]
      refine ⟨by simpa using ih.pos, ?_⟩
      intro c hc
      rcases List.mem_or_eq_of_mem_set hc with hm | hm
      · exact ih.sorted c hm
      · subst hm
        apply List.Pairwise.sublist (chain_remove_sublist _)
        rcases getD_cases t.buckets
            (t.hash_function k % t.buckets.length) [] with hg | hg
        · exact ih.sorted _ hg
        · rw [hg]; exact List.Pairwise.nil
  | clear t _ ih =>
    rcases clear_foldl_props (List.range t.buckets.length) t with ⟨h1, h2, h3⟩
    refine ⟨?_, ?_⟩
    · unfold hash_table_clear
      rw [h1]; exact ih.pos
    · intro c hc
      unfold hash_table_clear at hc
      rcases h3 c hc with hm | hm
      · unfold hash_table_clear
        rw [h2]
        exact ih.sorted c hm
      · rw [hm]; exact List.Pairwise.nil
  | apply t f u _ happ ih =>
    rcases hash_table_apply_to_all_shape t f u happ with ⟨h1, _, _, h4⟩
    have hlen : u.buckets.length = t.buckets.length := by
      have := congrArg List.length h4
      simpa using this
    refine ⟨by rw [hlen]; exact ih.pos, ?_⟩
    intro c hc
    have hmap : c.map Prod.fst ∈ t.buckets.map (List.map Prod.fst) := by
      rw [← h4]
      exact List.mem_map_of_mem _ hc
    rcases List.mem_map.mp hmap with ⟨c0, hc0, hkeys⟩
    have hs0 := ih.sorted c0 hc0
    have hpair0 : (c0.map Prod.fst).Pairwise
        (fun a b => t.hash_function a ≤ t.hash_function b) :=
      List.pairwise_map.mpr hs0
    rw [hkeys] at hpair0
    have := List.pairwise_map.mp hpair0
    rw [h1]
    exact this

/-! ### Insert sequences -/

theorem insert_list_cons (vf : K → V) (t : hash_table K V) (k0 : K)
    (rest : List K) :
    insert_list vf t (k0 :: rest) =
      insert_list vf (hash_table_insert t k0 (vf k0)) rest := rfl

/-- Inserting a sequence of hash-distinct fresh keys into a table whose
bucket count has no successor prime: no resize ever fires, the bucket
count stays, the size grows by one per key, every inserted key is
retrievable, and other hashes are untouched. -/
theorem insert_list_no_resize (f : K → Nat) (vf : K → V) :
    ∀ (ks : List K) (t : hash_table K V),
      t.hash_function = f →
      get_next_prime_number t.buckets.length = none →
      0 < t.buckets.length →
      (∀ e ∈ t.buckets.flatten, ∀ k ∈ ks, f e.1 ≠ f k) →
      List.Pairwise (fun a b => f a ≠ f b) ks →
      (insert_list vf t ks).hash_function = f ∧
      (insert_list vf t ks).buckets.length = t.buckets.length ∧
      (insert_list vf t ks).size = t.size + ks.length ∧
      (∀ k ∈ ks, hash_table_lookup (insert_list vf t ks) k = some (vf k)) ∧
      (∀ k', (∀ k ∈ ks, f k' ≠ f k) →
        hash_table_lookup (insert_list vf t ks) k' = hash_table_lookup t k') ∧
      (∀ e ∈ (insert_list vf t ks).buckets.flatten,
        (∃ e0 ∈ t.buckets.flatten, e.1 = e0.1) ∨ ∃ k ∈ ks, e.1 = k) := by
  intro ks
  induction ks with
  | nil =>
    intro t hf _ _ _ _
    exact ⟨hf, rfl, rfl, by simp, fun _ _ => rfl,
      fun e he => Or.inl ⟨e, he, rfl⟩⟩
  | cons k0 rest ih =>
    intro t hf hnext hpos hfresh hdist
    have hres : hash_table_resize t = t := hash_table_resize_eq_self t hnext
    have hd := List.pairwise_cons.mp hdist
    set t1 := hash_table_insert t k0 (vf k0) with ht1
    have hf1 : t1.hash_function = f := by
      rw [ht1, hash_table_insert_hash_function]; exact hf
    have hlen1 : t1.buckets.length = t.buckets.length := by
      rw [ht1, hash_table_insert_length, hres]
    have hpos1 : 0 < t1.buckets.length := by rw [hlen1]; exact hpos
    have hnext1 : get_next_prime_number t1.buckets.length = none := by
      rw [hlen1]; exact hnext
    have hchain_fresh : ∀ x ∈ t.buckets.getD
        (t.hash_function k0 % t.buckets.length) [],
        t.hash_function x.1 ≠ t.hash_function k0 := by
      intro x hx
      rcases getD_cases t.buckets
          (t.hash_function k0 % t.buckets.length) [] with hg | hg
      · rw [hf]
        exact hfresh x (List.mem_flatten_of_mem hg hx) k0
          (List.mem_cons_self k0 rest)
      · rw [hg] at hx; simp at hx
    have hsize1 : t1.size = t.size + 1 :=
      hash_table_insert_size_add t k0 (vf k0) hres hchain_fresh
    have hfresh1 : ∀ e ∈ t1.buckets.flatten, ∀ k ∈ rest, f e.1 ≠ f k := by
      intro e he k hk
      rcases hash_table_insert_flatten t k0 (vf k0) hres e he with h | ⟨e0, he0, hh⟩
      · rw [h]
        exact hd.1 k hk
      · rw [hh]
        exact hfresh e0 he0 k (List.mem_cons_of_mem k0 hk)
    rcases ih t1 hf1 hnext1 hpos1 hfresh1 hd.2 with
      ⟨ih1, ih2, ih3, ih4, ih5, ih6⟩
    rw [insert_list_cons]
    refine ⟨ih1, by rw [ih2, hlen1], by rw [ih3, hsize1, List.length_cons]; omega, ?_, ?_, ?_⟩
    · intro k hk
      rcases List.mem_cons.mp hk with hk | hk
      · subst hk
        rw [ih5 k (fun x hx => hd.1 x hx)]
        exact lookup_insert_self t k (vf k) hpos
      · exact ih4 k hk
    · intro k1 hk1
      rw [ih5 k1 (fun x hx => hk1 x (List.mem_cons_of_mem k0 hx))]
      have hne : t.hash_function k1 ≠ t.hash_function k0 := by
        rw [hf]
        exact hk1 k0 (List.mem_cons_self k0 rest)
      exact hash_table_insert_lookup_ne t k0 (vf k0) hres hpos k1 hne
    · intro e he
      rcases ih6 e he with ⟨e0, he0, hh⟩ | ⟨k, hk, hh⟩
      · rcases hash_table_insert_flatten t k0 (vf k0) hres e0 he0 with h | ⟨e1, he1, hh1⟩
        · exact Or.inr ⟨k0, List.mem_cons_self k0 rest, by rw [hh, h]⟩
        · exact Or.inl ⟨e1, he1, by rw [hh, hh1]⟩
      · exact Or.inr ⟨k, List.mem_cons_of_mem k0 hk, hh⟩

/-! ### Creation helpers -/

/-- The number scan accepts exactly the members of the primes array. -/
theorem in_prime_library_iff (n : Nat) :
    is_number_in_prime_library n = true ↔ n ∈ primes := by
  unfold is_number_in_prime_library
  rw [List.any_eq_true]
  constructor
  · rintro ⟨p, hp, hpn⟩
    have hpq : p = n := by simpa using hpn
    exact hpq ▸ hp
  · intro h
    exact ⟨n, h, by simp⟩

/-- Creation fails exactly on a rejected bucket count or load factor. -/
theorem create_dynamic_eq_none_iff (n : Nat) (lf : ℚ) (f : K → Nat) :
    hash_table_create_dynamic (V := V) n lf f = none ↔
      is_number_in_prime_library n = false ∨ lf ≤ 0 := by
  unfold hash_table_create_dynamic
  by_cases h1 : is_number_in_prime_library n = false
  · simp [h1]
  · by_cases h2 : lf ≤ 0
    · simp [h1, h2]
    · simp [h1, h2]

/-- The default creation call succeeds with table17. -/
theorem table17_create :
    hash_table_create_dynamic 17 (mkRat 3 4) default_hash_function =
      some table17 := by
  rw [create_dynamic_eq_some default_hash_function (by decide) (by decide)]
  rfl

/-- table17 is reachable. -/
theorem table17_reachable : Reachable table17 :=
  Reachable.create 17 (mkRat 3 4) default_hash_function table17 table17_create

/-! ### Claims -/

/-- C1: Round-trip: for every table state reachable by the public
operations and for all keys k and values v, performing insert(t, k, v)
and then lookup(t, k) returns found = true with value v. -/
theorem insert_lookup_round_trip (t : hash_table K V) (k : K) (v : V)
    (h : Reachable t) :
    hash_table_lookup (hash_table_insert t k v) k = some v :=
  lookup_insert_self t k v (reachable_wf h).pos

/-- Witness for C1 at the default table, key 3, value 9. -/
theorem insert_lookup_round_trip_witness :
    hash_table_lookup (hash_table_insert table17 3 9) 3 = some 9 :=
  insert_lookup_round_trip table17 3 9 table17_reachable

/-- C2: lookup walks the chain of bucket hash(k) mod no_buckets and
returns the value of the first entry whose stored hash equals hash(k),
found = false when no entry in that chain carries the hash; consequently
two distinct keys with equal hash values are treated as the same key. -/
theorem lookup_matches_by_stored_hash (t : hash_table K V) (k : K) :
    hash_table_lookup t k = lookupSpec t k ∧
    ∀ k1, t.hash_function k1 = t.hash_function k →
      hash_table_lookup t k1 = hash_table_lookup t k := by
  constructor
  · unfold hash_table_lookup lookupSpec
    exact chain_lookup_eq_find _
  · intro k1 hk
    unfold hash_table_lookup
    rw [hk]

/-- Witness for C2: the table holding keys 0, 1, 2; the distinct keys 1
and 1 + 2^64 collide under the default hash and are looked up alike. -/
theorem lookup_matches_by_stored_hash_witness :
    hash_table_lookup (demo_inserts 3) 1 = lookupSpec (demo_inserts 3) 1 ∧
    hash_table_lookup (demo_inserts 3) (1 + 2 ^ 64) =
      hash_table_lookup (demo_inserts 3) 1 := by
  refine ⟨(lookup_matches_by_stored_hash (demo_inserts 3) 1).1, ?_⟩
  exact (lookup_matches_by_stored_hash (demo_inserts 3) 1).2 (1 + 2 ^ 64)
    (by decide)

/-- C3 (code bug): on a single-entry table whose entry occupies bucket 5
the key enumeration is [5] and the value enumeration is [7], but the
value-pointer array built by hash_table_values_arr leaves its only slot
null — the write targets index 5 + 0, past the end of the 1-slot array —
so hash_table_apply_to_all dereferences a null value pointer (modelled as
none) and the stored value is never transformed. -/
theorem apply_to_all_null_value_pointer :
    hash_table_size tOne = 1 ∧
    hash_table_keys tOne = [5] ∧
    hash_table_values tOne = [7] ∧
    hash_table_values_arr tOne = [none] ∧
    hash_table_apply_to_all tOne (fun _ v => v + 1) = none := by
  refine ⟨by decide, by decide, by decide, by decide, ?_⟩
  exact Option.isNone_iff_eq_none.mp (by decide)

/-- C4 counterexample: with the default configuration the resize to 31
buckets fires during the insert of key 13 (size 13, 13/17 ≥ 0.75), so it
is not the insert of key 17 that triggers it: after keys 0..12 the table
still has 17 buckets, after keys 0..13 it already has 31, and it has 31
both before and after key 17 is inserted. -/
theorem resize_triggered_by_key13 :
    (demo_inserts 13).buckets.length = 17 ∧
    (demo_inserts 14).buckets.length = 31 ∧
    (demo_inserts 17).buckets.length = 31 ∧
    (demo_inserts 18).buckets.length = 31 :=
  ⟨by decide, by decide, by decide, by decide⟩

/-- C4 amended: on the default table, inserting keys 0..16 with value
equal to key yields size 17; the resize to 31 buckets is triggered by the
insert of key 13 (the 14th insert), not by the insert of key 17, which
triggers none; afterwards lookup(17) returns (true, 17) and every key
0..16 is still found. -/
theorem default_scenario_amended :
    (demo_inserts 17).size = 17 ∧
    (demo_inserts 13).buckets.length = 17 ∧
    (demo_inserts 14).buckets.length = 31 ∧
    (demo_inserts 18).buckets.length = 31 ∧
    hash_table_lookup (demo_inserts 18) 17 = some 17 ∧
    ((List.range 17).all fun k =>
      hash_table_lookup (demo_inserts 18) (Int.ofNat k) ==
        some (Int.ofNat k)) = true :=
  ⟨by decide, by decide, by decide, by decide, by decide, by decide⟩

/-- C5: in every reachable table state the entries of each bucket's chain
are in ascending order of the numeric hash of their key, and this
ordering is preserved by every insert and by the rehash performed during
resize. -/
theorem chains_hash_ordered (t : hash_table K V) (h : Reachable t) :
    (∀ c ∈ t.buckets,
      List.Pairwise (· ≤ ·) (c.map fun e => t.hash_function e.1)) ∧
    (∀ (k : K) (v : V), ∀ c ∈ (hash_table_insert t k v).buckets,
      List.Pairwise (· ≤ ·)
        (c.map fun e => (hash_table_insert t k v).hash_function e.1)) ∧
    (∀ c ∈ (hash_table_resize t).buckets,
      List.Pairwise (· ≤ ·)
        (c.map fun e => (hash_table_resize t).hash_function e.1)) := by
  have w := reachable_wf h
  refine ⟨?_, ?_, ?_⟩
  · intro c hc
    exact List.pairwise_map.mpr (w.sorted c hc)
  · intro k v c hc
    have w2 := reachable_wf (Reachable.insert t k v h)
    exact List.pairwise_map.mpr (w2.sorted c hc)
  · intro c hc
    rw [hash_table_resize_hash_function]
    exact List.pairwise_map.mpr (hash_table_resize_sorted t w.sorted c hc)

/-- Witness for C5: the chain of bucket 5 after inserting key 5 into the
default table is hash-ordered. -/
theorem chains_hash_ordered_witness :
    List.Pairwise (· ≤ ·)
      ((tOne.buckets.getD 5 []).map fun e => tOne.hash_function e.1) :=
  (chains_hash_ordered table17 table17_reachable).2.1 5 7
    (tOne.buckets.getD 5 []) (by decide)

/-- C6: on a reachable table, insert(k, v1) then insert(k, v2) leaves
lookup(k) = (true, v2), and the second insert leaves size unchanged: the
existing entry is overwritten in place. -/
theorem insert_insert_idempotent_update (t : hash_table K V) (k : K)
    (v1 v2 : V) (h : Reachable t) :
    hash_table_lookup
        (hash_table_insert (hash_table_insert t k v1) k v2) k = some v2 ∧
    (hash_table_insert (hash_table_insert t k v1) k v2).size =
      (hash_table_insert t k v1).size := by
  have w := reachable_wf h
  have w1 := reachable_wf (Reachable.insert t k v1 h)
  constructor
  · exact lookup_insert_self _ k v2 w1.pos
  · apply hash_table_insert_size_update _ k v2 w1.pos w1.sorted
    rw [hash_table_insert_hash_function]
    exact hash_table_insert_mem t k v1 w.pos

/-- Witness for C6 at the default table, key 4, values 1 then 2. -/
theorem insert_insert_idempotent_update_witness :
    hash_table_lookup
        (hash_table_insert (hash_table_insert table17 4 1) 4 2) 4 = some 2 ∧
    (hash_table_insert (hash_table_insert table17 4 1) 4 2).size =
      (hash_table_insert table17 4 1).size :=
  insert_insert_idempotent_update table17 4 1 2 table17_reachable

/-- C7: a table created at the largest prime bucket count (16381) never
resizes — resize is the identity before and after the inserts — and
inserting any list of keys with pairwise distinct hashes still succeeds:
the bucket count stays 16381, size counts all of them, and every inserted
key remains retrievable. -/
theorem resize_ceiling (lf : ℚ) (f : K → Nat) (vf : K → V) (ks : List K)
    (t : hash_table K V)
    (hc : hash_table_create_dynamic 16381 lf f = some t)
    (hdist : List.Pairwise (fun a b => f a ≠ f b) ks) :
    hash_table_resize t = t ∧
    hash_table_resize (insert_list vf t ks) = insert_list vf t ks ∧
    (insert_list vf t ks).buckets.length = 16381 ∧
    (insert_list vf t ks).size = ks.length ∧
    ∀ k ∈ ks, hash_table_lookup (insert_list vf t ks) k = some (vf k) := by
  rcases create_dynamic_some hc with ⟨_, _, ht⟩
  have hfun : t.hash_function = f := by rw [ht]
  have hlen : t.buckets.length = 16381 := by
    rw [ht]
    exact List.length_replicate 16381 []
  have hsize : t.size = 0 := by rw [ht]
  have hnext : get_next_prime_number t.buckets.length = none := by
    rw [hlen]
    rfl
  have hpos : 0 < t.buckets.length := by
    rw [hlen]
    decide
  have hfresh : ∀ e ∈ t.buckets.flatten, ∀ k ∈ ks, f e.1 ≠ f k := by
    intro e he
    rw [ht] at he
    rcases List.mem_flatten.mp he with ⟨l, hl, hel⟩
    rw [List.eq_of_mem_replicate hl] at hel
    simp at hel
  rcases insert_list_no_resize f vf ks t hfun hnext hpos hfresh hdist with
    ⟨_, h2, h3, h4, _, _⟩
  rw [hlen] at h2
  rw [hsize, Nat.zero_add] at h3
  refine ⟨hash_table_resize_eq_self _ hnext, ?_, h2, h3, h4⟩
  apply hash_table_resize_eq_self
  rw [h2]
  rw [← hlen]
  exact hnext

/-- Witness for C7 at the 16381-bucket table with keys 1, 2, 3 valued by
multiplication by 10. -/
theorem resize_ceiling_witness :
    hash_table_resize tBig = tBig ∧
    (insert_list (fun k => 10 * k) tBig [1, 2, 3]).buckets.length = 16381 ∧
    (insert_list (fun k => 10 * k) tBig [1, 2, 3]).size = 3 ∧
    hash_table_lookup (insert_list (fun k => 10 * k) tBig [1, 2, 3]) 2 =
      some 20 := by
  rcases resize_ceiling (mkRat 1 2) (fun k => k) (fun k => 10 * k) [1, 2, 3]
    tBig
    (by rw [create_dynamic_eq_some (fun k => k) (by decide) (by decide)]
        rfl)
    (by decide) with ⟨a, _, b, c, d⟩
  exact ⟨a, b, c, d 2 (by decide)⟩

/-- C8: creation returns no table exactly when the bucket count is not in
the fixed prime set or the load factor is ≤ 0; every table it does return
has the requested bucket count, size 0 and all chains empty. -/
theorem creation_validation (n : Nat) (lf : ℚ) (f : K → Nat) :
    (hash_table_create_dynamic (V := V) n lf f = none ↔
      n ∉ ([17, 31, 67, 127, 257, 509, 1021, 2053, 4099, 8191,
        16381] : List Nat) ∨ lf ≤ 0) ∧
    ∀ t : hash_table K V, hash_table_create_dynamic n lf f = some t →
      t.buckets.length = n ∧ t.size = 0 ∧ ∀ c ∈ t.buckets, c = [] := by
  refine ⟨?_, ?_⟩
  · rw [create_dynamic_eq_none_iff]
    constructor
    · rintro (h | h)
      · left
        intro hn
        rw [(in_prime_library_iff n).mpr hn] at h
        cases h
      · exact Or.inr h
    · rintro (h | h)
      · left
        cases hb : is_number_in_prime_library n with
        | false => rfl
        | true => exact absurd ((in_prime_library_iff n).mp hb) h
      · exact Or.inr h
  · intro t ht
    rcases create_dynamic_some ht with ⟨_, _, rfl⟩
    refine ⟨by simp, rfl, ?_⟩
    intro c hc
    exact List.eq_of_mem_replicate hc

/-- Witness for C8: bucket count 18 is rejected, load factor -1 is
rejected, and the accepted default call yields 17 buckets and size 0. -/
theorem creation_validation_witness :
    hash_table_create_dynamic (K := Int) (V := Int) 18 (mkRat 3 4)
      default_hash_function = none ∧
    hash_table_create_dynamic (K := Int) (V := Int) 17 (-1 : ℚ)
      default_hash_function = none ∧
    table17.buckets.length = 17 ∧ table17.size = 0 := by
  refine ⟨?_, ?_, ?_, ?_⟩
  · exact (creation_validation 18 (mkRat 3 4) default_hash_function).1.mpr
      (Or.inl (by decide))
  · exact (creation_validation 17 (-1) default_hash_function).1.mpr
      (Or.inr (by norm_num))
  · exact ((creation_validation 17 (mkRat 3 4) default_hash_function).2
      table17 table17_create).1
  · exact ((creation_validation 17 (mkRat 3 4) default_hash_function).2
      table17 table17_create).2.1

/-- C9: removing a key whose hash is carried by no entry of its bucket's
chain returns removed = false and leaves the table entirely unchanged;
on an empty table this holds for every key. -/
theorem remove_absent_noop (t : hash_table K V) (k : K)
    (h : ∀ e ∈ t.buckets.getD (t.hash_function k % t.buckets.length) [],
      t.hash_function e.1 ≠ t.hash_function k) :
    hash_table_remove t k = (none, t) := by
  apply hash_table_remove_of_lookup_none
  unfold hash_table_lookup
  exact (chain_lookup_eq_none _).mpr h

/-- Witness for C9: remove on the empty default table returns false and
the size stays 0. -/
theorem remove_absent_noop_witness :
    hash_table_remove table17 3 = (none, table17) ∧ table17.size = 0 :=
  ⟨remove_absent_noop table17 3 (by decide), rfl⟩

/-- C10: all(t, P, x) on a table of size 0 is true for every predicate,
vacuously: the positional loop performs zero iterations, so P is never
invoked. -/
theorem all_vacuous_on_empty (t : hash_table K V) (P : K → V → Bool)
    (h : t.size = 0) : hash_table_all t P = true := by
  unfold hash_table_all hash_table_size
  rw [h]
  rfl

/-- Witness for C10 with a constantly-false predicate on the empty
default table. -/
theorem all_vacuous_on_empty_witness :
    hash_table_all table17 (fun _ _ => false) = true :=
  all_vacuous_on_empty table17 (fun _ _ => false) rfl

end HashTableC
